import Mathlib

/-!
Verification of the line-addressed text-editing engine of the `jarvis`
MCP server (Go).  The Go functions of `internal/common` and the
`handlers` package are shallowly embedded as executable Lean
definitions: file contents are lists of characters, the filesystem is
an association list of paths to contents together with a predicate
saying which paths can currently be written, and every handler is a
pure function from a filesystem state to a filesystem state plus a
structured result.
-/

open List (Perm)
open scoped List

namespace Jarvis

/-- File content: a sequence of characters (Go `string`, byte/char level). -/
abbrev Text := List Char

/-- A filesystem path, also a character sequence. -/
abbrev Path := List Char

/-! ## Line splitting and joining (`common.SplitLines`, `common.JoinLines`) -/

/-- First normalization pass of `SplitLines`:
`strings.ReplaceAll(content, "\r\n", "\n")` — replace each (leftmost,
non-overlapping) occurrence of CR LF by LF. -/
def replaceCRLF : Text → Text
  | '\r' :: '\n' :: rest => '\n' :: replaceCRLF rest
  | c :: rest => c :: replaceCRLF rest
  | [] => []

/-- Second normalization pass of `SplitLines`:
`strings.ReplaceAll(content, "\r", "\n")`. -/
def replaceCR (t : Text) : Text :=
  t.map (fun c => if c = '\r' then '\n' else c)

/-- The normalization performed at the start of `common.SplitLines`:
collapse CR LF and lone CR to LF. -/
def normalizeText (t : Text) : Text :=
  replaceCR (replaceCRLF t)

/-- `strings.Split(content, "\n")`: strict split on the separator.  The
result always has one more part than there are separators; in
particular a trailing separator produces a trailing empty part. -/
def splitNL : Text → List Text
  | [] => [[]]
  | c :: rest =>
    if c = '\n' then [] :: splitNL rest
    else
      match splitNL rest with
      | [] => [[c]]
      | l :: ls => (c :: l) :: ls

/-- `common.SplitLines`: normalize line endings, then split on LF. -/
def splitLines (content : Text) : List Text :=
  splitNL (normalizeText content)

/-- `strings.Join(lines, "\n")`, the body of `common.JoinLines`. -/
def joinNL : List Text → Text
  | [] => []
  | [l] => l
  | l :: ls => l ++ '\n' :: joinNL ls

/-- `common.JoinLines`. -/
def joinLines (lines : List Text) : Text :=
  joinNL lines

theorem splitNL_ne_nil (t : Text) : splitNL t ≠ [] := by
  induction t with
  | nil => simp [splitNL]
  | cons c rest ih =>
    simp only [splitNL]
    split
    · simp
    · match h : splitNL rest with
      | [] => exact absurd h ih
      | l :: ls => simp

theorem joinNL_splitNL (t : Text) : joinNL (splitNL t) = t := by
  induction t with
  | nil => rfl
  | cons c rest ih =>
    simp only [splitNL]
    split
    · rename_i hc
      subst hc
      match h : splitNL rest with
      | [] => exact absurd h (splitNL_ne_nil rest)
      | l :: ls =>
        rw [h] at ih
        simp only [joinNL]
        match ls with
        | [] => simp only [joinNL] at ih; simp [joinNL, ih]
        | l' :: ls' => simpa [joinNL] using ih
    · match h : splitNL rest with
      | [] => exact absurd h (splitNL_ne_nil rest)
      | l :: ls =>
        rw [h] at ih
        match ls with
        | [] => simp only [joinNL] at ih ⊢; simp [ih]
        | l' :: ls' => simp only [joinNL] at ih ⊢; simp [ih]

/-- Normalized text contains no CR, so re-splitting is stable; not needed
for the round trip itself but records what "normalized" means. -/
theorem normalizeText_no_cr (t : Text) : '\r' ∉ normalizeText t := by
  intro h
  simp only [normalizeText, replaceCR, List.mem_map] at h
  obtain ⟨c, _, hc⟩ := h
  by_cases h' : c = '\r' <;> simp [h'] at hc

/-- C7 -- Round trip: for every input text `t`, serializing the loaded
line buffer reproduces the normalized text, `joinLines (splitLines t) =
normalizeText t`, where normalization collapses CR LF and CR to LF; and
the split is strict, so text ending in a final separator loads with an
explicit trailing empty line (witnessed by `"a\n"`). -/
theorem splitLines_roundTrip :
    (∀ t : Text, joinLines (splitLines t) = normalizeText t) ∧
    splitLines ['a', '\n'] = [['a'], []] := by
  constructor
  · intro t
    simp [joinLines, splitLines, joinNL_splitNL]
  · rfl

/-! ## Edit operations (`internal/types`, `common.OperationsOverlap`,
`common.ValidateEditOperations`, `common.SortOperationsByLine`) -/

/-- `types.EditOperation`.  Line numbers are Go `int`s deserialized from
JSON, so they may be non-positive; hence `Int`. -/
structure EditOperation where
  startLine : Int
  endLine : Int
  replacement : Text
  description : Text := []
deriving DecidableEq, Repr

/-- `common.OperationsOverlap`: inclusive ranges intersect,
`!(op1.EndLine < op2.StartLine || op2.EndLine < op1.StartLine)`. -/
def operationsOverlap (op1 op2 : EditOperation) : Bool :=
  !(op1.endLine < op2.startLine || op2.endLine < op1.startLine)

/-- The error classes produced by `ValidateEditOperations`, one
constructor per distinct Go error message, each carrying the 1-based
operation indices printed in that message. -/
inductive ValidationError
  /-- "operation %d: line numbers must be positive" -/
  | invalidRangePositive (i : Nat)
  /-- "operation %d: line numbers exceed file length (%d lines)" -/
  | outOfBounds (i : Nat)
  /-- "operation %d: start_line (%d) > end_line (%d)" -/
  | invalidRangeOrder (i : Nat)
  /-- "operations %d and %d overlap" -/
  | overlapping (i j : Nat)
deriving DecidableEq, Repr

/-- The spec's failure taxonomy groups the per-operation messages into
classes: positivity and ordering violations are `InvalidRange`, length
violations are `OutOfBounds`. -/
inductive ErrClass
  | invalidRange
  | outOfBounds
  | overlappingOperations
deriving DecidableEq, Repr

/-- Map each concrete validation error to its spec error class. -/
def errClass : ValidationError → ErrClass
  | .invalidRangePositive _ => .invalidRange
  | .outOfBounds _ => .outOfBounds
  | .invalidRangeOrder _ => .invalidRange
  | .overlapping _ _ => .overlappingOperations

/-- The per-operation body of the first loop of
`ValidateEditOperations`, for operation index `i` (0-based) on a buffer
of `len` lines; checks positivity, then bounds, then ordering, in the
order the Go code writes them. -/
def checkOpRanges (len : Nat) (i : Nat) (op : EditOperation) :
    Option ValidationError :=
  if op.startLine < 1 ∨ op.endLine < 1 then some (.invalidRangePositive (i + 1))
  else if op.startLine > (len : Int) ∨ op.endLine > (len : Int) then
    some (.outOfBounds (i + 1))
  else if op.startLine > op.endLine then some (.invalidRangeOrder (i + 1))
  else none

/-- The first loop of `ValidateEditOperations`: return the error of the
first operation failing a range check. -/
def checkRangesFrom (len : Nat) : Nat → List EditOperation →
    Option ValidationError
  | _, [] => none
  | i, op :: rest =>
    match checkOpRanges len i op with
    | some e => some e
    | none => checkRangesFrom len (i + 1) rest

/-- Inner loop of the overlap check: compare operation `i` against the
operations after it (the first of `rest` has index `j`). -/
def checkOverlapRow (opi : EditOperation) (i : Nat) : Nat →
    List EditOperation → Option ValidationError
  | _, [] => none
  | j, opj :: rest =>
    if operationsOverlap opi opj then some (.overlapping (i + 1) (j + 1))
    else checkOverlapRow opi i (j + 1) rest

/-- Outer loop of the overlap check of `ValidateEditOperations`. -/
def checkOverlapsFrom : Nat → List EditOperation → Option ValidationError
  | _, [] => none
  | i, op :: rest =>
    match checkOverlapRow op i (i + 1) rest with
    | some e => some e
    | none => checkOverlapsFrom (i + 1) rest

/-- `common.ValidateEditOperations`: range checks for every operation,
then the pairwise overlap check. -/
def validateEditOperations (lines : List Text) (ops : List EditOperation) :
    Option ValidationError :=
  match checkRangesFrom lines.length 0 ops with
  | some e => some e
  | none => checkOverlapsFrom 0 ops

/-- The descending exchange sort shared (textually duplicated in Go) by
`common.SortOperationsByLine` and `common.ApplyTextInsertions`:

    for i := 0; i < len(a)-1; i++ {
      for j := i + 1; j < len(a); j++ {
        if key(a[i]) < key(a[j]) { a[i], a[j] = a[j], a[i] }
      }
    }

`innerPassBy cur xs` is one inner loop: `cur` is the element at slot
`i`, `xs` the slots after it; it returns the final element of slot `i`
(the running maximum) and the new contents of the later slots, each
displaced element landing at the slot it was swapped into. -/
def innerPassBy (key : α → Int) (cur : α) : List α → α × List α
  | [] => (cur, [])
  | x :: xs =>
    if key cur < key x then
      ((innerPassBy key x xs).1, cur :: (innerPassBy key x xs).2)
    else
      ((innerPassBy key cur xs).1, x :: (innerPassBy key cur xs).2)

theorem innerPassBy_length (key : α → Int) (cur : α) (xs : List α) :
    (innerPassBy key cur xs).2.length = xs.length := by
  induction xs generalizing cur with
  | nil => rfl
  | cons x xs ih =>
    simp only [innerPassBy]
    split <;> simp [ih]

/-- The outer loop of the exchange sort, fuelled by the number of
remaining slots (the inner pass preserves length, so fuel
`l.length` always suffices; the `0, x :: xs` case is unreachable). -/
def exchangeSortAux (key : α → Int) : Nat → List α → List α
  | _, [] => []
  | 0, x :: xs => x :: xs
  | Nat.succ n, x :: xs =>
    (innerPassBy key x xs).1 :: exchangeSortAux key n (innerPassBy key x xs).2

/-- The exchange sort. -/
def exchangeSortBy (key : α → Int) (l : List α) : List α :=
  exchangeSortAux key l.length l

/-- `common.SortOperationsByLine`: the exchange sort, descending on
`StartLine`. -/
def sortOperationsByLine (operations : List EditOperation) :
    List EditOperation :=
  exchangeSortBy (fun op => op.startLine) operations

/-- Loop body of the `Apply operations` loops of `HandleEditFile` and
`HandleEditMultipleFiles` (and of `HandleEditBlock`):

    newLines = lines[:op.StartLine-1] ++ SplitLines(op.Replacement) ++ lines[op.EndLine:]
-/
def applyOp (lines : List Text) (op : EditOperation) : List Text :=
  lines.take (op.startLine - 1).toNat ++ splitLines op.replacement ++
    lines.drop op.endLine.toNat

/-- Sequential application of (already sorted) operations, as the Go
`for _, op := range sortedOps` loop does. -/
def applyOps (lines : List Text) (ops : List EditOperation) : List Text :=
  ops.foldl applyOp lines

/-- C3 -- For every buffer of lines and every validated edit operation,
applying the operation replaces the inclusive line range
`[start_line, end_line]` with the lines obtained by splitting the
replacement text: the result keeps lines `1..start_line-1`, then holds
the replacement lines, then the lines from `end_line+1` on, and in
particular on `["a","b","c","d"]` the operation
`{start_line 2, end_line 3, replacement "X\nY\nZ"}` yields
`["a","X","Y","Z","d"]`. -/
theorem applyOp_replaces_range :
    (∀ (lines : List Text) (op : EditOperation),
      1 ≤ op.startLine → op.startLine ≤ op.endLine →
      op.endLine ≤ (lines.length : Int) →
      (applyOp lines op).length =
          (op.startLine - 1).toNat + (splitLines op.replacement).length +
            (lines.length - op.endLine.toNat) ∧
      (∀ i, i < (op.startLine - 1).toNat →
          (applyOp lines op)[i]? = lines[i]?) ∧
      (∀ j, j < (splitLines op.replacement).length →
          (applyOp lines op)[(op.startLine - 1).toNat + j]? =
            (splitLines op.replacement)[j]?) ∧
      (∀ k, (applyOp lines op)[(op.startLine - 1).toNat +
              (splitLines op.replacement).length + k]? =
            lines[op.endLine.toNat + k]?)) ∧
    applyOp [['a'], ['b'], ['c'], ['d']]
        { startLine := 2, endLine := 3,
          replacement := ['X', '\n', 'Y', '\n', 'Z'] } =
      [['a'], ['X'], ['Y'], ['Z'], ['d']] := by
  constructor
  · intro lines op h1 h2 h3
    have hs : (op.startLine - 1).toNat ≤ lines.length := by omega
    have he : op.endLine.toNat ≤ lines.length := by omega
    have hlen : (lines.take (op.startLine - 1).toNat).length =
        (op.startLine - 1).toNat := by
      simp [List.length_take]; omega
    refine ⟨?_, ?_, ?_, ?_⟩
    · simp only [applyOp, List.length_append, List.length_take,
        List.length_drop]
      omega
    · intro i hi
      simp only [applyOp, List.append_assoc]
      rw [List.getElem?_append, if_pos (by rw [hlen]; omega)]
      rw [List.getElem?_take, if_pos hi]
    · intro j hj
      simp only [applyOp, List.append_assoc]
      rw [List.getElem?_append_right (by omega), hlen]
      simp only [Nat.add_sub_cancel_left]
      rw [List.getElem?_append, if_pos hj]
    · intro k
      simp only [applyOp, List.append_assoc]
      rw [List.getElem?_append_right (by omega), hlen]
      rw [List.getElem?_append_right (by omega)]
      have : (op.startLine - 1).toNat + (splitLines op.replacement).length +
          k - (op.startLine - 1).toNat - (splitLines op.replacement).length
          = k := by omega
      rw [this, List.getElem?_drop]
  · rfl

/-- Witness for `applyOp_replaces_range`: the general part instantiated
on the spec's concrete scenario. -/
theorem applyOp_replaces_range_witness :
    (applyOp [['a'], ['b'], ['c'], ['d']]
        { startLine := 2, endLine := 3,
          replacement := ['X', '\n', 'Y', '\n', 'Z'] })[1]? =
      (splitLines ['X', '\n', 'Y', '\n', 'Z'])[0]? :=
  (applyOp_replaces_range.1 [['a'], ['b'], ['c'], ['d']]
      { startLine := 2, endLine := 3,
        replacement := ['X', '\n', 'Y', '\n', 'Z'] }
      (by decide) (by decide) (by decide)).2.2.1 0 (by decide)

/-! ## Characterization of `ValidateEditOperations` -/

/-- The conditions the first loop of `ValidateEditOperations` enforces
on one operation for a buffer of `len` lines. -/
def opWellFormed (len : Nat) (op : EditOperation) : Prop :=
  1 ≤ op.startLine ∧ 1 ≤ op.endLine ∧ op.startLine ≤ (len : Int) ∧
    op.endLine ≤ (len : Int) ∧ op.startLine ≤ op.endLine

instance (len : Nat) (op : EditOperation) : Decidable (opWellFormed len op) := by
  unfold opWellFormed; infer_instance

theorem checkOpRanges_eq_none_iff (len i : Nat) (op : EditOperation) :
    checkOpRanges len i op = none ↔ opWellFormed len op := by
  simp only [checkOpRanges, opWellFormed]
  split
  · rename_i h
    simp only [reduceCtorEq, false_iff]
    omega
  · split
    · rename_i h1 h2
      simp only [reduceCtorEq, false_iff]
      omega
    · split
      · rename_i h1 h2 h3
        simp only [reduceCtorEq, false_iff]
        omega
      · rename_i h1 h2 h3
        simp only [true_iff]
        omega

theorem checkRangesFrom_eq_none_iff (len : Nat) (i : Nat)
    (ops : List EditOperation) :
    checkRangesFrom len i ops = none ↔ ∀ op ∈ ops, opWellFormed len op := by
  induction ops generalizing i with
  | nil => simp [checkRangesFrom]
  | cons op rest ih =>
    simp only [checkRangesFrom, List.mem_cons]
    cases h : checkOpRanges len i op with
    | some e =>
      simp only [reduceCtorEq, false_iff]
      intro hall
      have hn := (checkOpRanges_eq_none_iff len i op).mpr (hall op (Or.inl rfl))
      rw [hn] at h
      simp at h
    | none =>
      rw [ih (i + 1)]
      rw [checkOpRanges_eq_none_iff] at h
      constructor
      · rintro hall op' (rfl | hmem)
        · exact h
        · exact hall op' hmem
      · intro hall op' hmem
        exact hall op' (Or.inr hmem)

theorem checkOverlapRow_eq_none_iff (opi : EditOperation) (i j : Nat)
    (rest : List EditOperation) :
    checkOverlapRow opi i j rest = none ↔
      ∀ b ∈ rest, operationsOverlap opi b = false := by
  induction rest generalizing j with
  | nil => simp [checkOverlapRow]
  | cons b rest ih =>
    simp only [checkOverlapRow, List.mem_cons]
    split
    · rename_i h
      simp only [reduceCtorEq, false_iff]
      intro hall
      exact absurd h (by simp [hall b (Or.inl rfl)])
    · rename_i h
      rw [ih (j + 1)]
      constructor
      · rintro hall b' (rfl | hmem)
        · simpa using h
        · exact hall b' hmem
      · intro hall b' hmem
        exact hall b' (Or.inr hmem)

theorem checkOverlapsFrom_eq_none_iff (i : Nat) (ops : List EditOperation) :
    checkOverlapsFrom i ops = none ↔
      ops.Pairwise (fun a b => operationsOverlap a b = false) := by
  induction ops generalizing i with
  | nil => simp [checkOverlapsFrom]
  | cons op rest ih =>
    simp only [checkOverlapsFrom, List.pairwise_cons]
    cases h : checkOverlapRow op i (i + 1) rest with
    | some e =>
      simp only [reduceCtorEq, false_iff]
      intro ⟨hrow, _⟩
      rw [← checkOverlapRow_eq_none_iff op i (i + 1) rest] at hrow
      simp [hrow] at h
    | none =>
      rw [checkOverlapRow_eq_none_iff] at h
      rw [ih (i + 1)]
      exact ⟨fun hrec => ⟨h, hrec⟩, fun ⟨_, hrec⟩ => hrec⟩

theorem validateEditOperations_eq_none_iff (lines : List Text)
    (ops : List EditOperation) :
    validateEditOperations lines ops = none ↔
      (∀ op ∈ ops, opWellFormed lines.length op) ∧
        ops.Pairwise (fun a b => operationsOverlap a b = false) := by
  simp only [validateEditOperations]
  cases h : checkRangesFrom lines.length 0 ops with
  | some e =>
    simp only [reduceCtorEq, false_iff]
    intro ⟨hall, _⟩
    rw [← checkRangesFrom_eq_none_iff lines.length 0 ops] at hall
    simp [hall] at h
  | none =>
    rw [checkOverlapsFrom_eq_none_iff]
    rw [checkRangesFrom_eq_none_iff] at h
    exact ⟨fun hov => ⟨h, hov⟩, fun ⟨_, hov⟩ => hov⟩

/-- C4 (amended) -- Validation succeeds iff every operation satisfies
`start_line ≥ 1`, `end_line ≥ 1`, `end_line ≥ start_line`, both line
numbers at most the buffer line count, and no two operations' inclusive
ranges intersect; the per-operation checks run in the order positivity,
out-of-bounds, then range ordering, so an operation whose line numbers
exceed the buffer length is reported `OutOfBounds` even when its
`end_line < start_line`, while an in-bounds operation with
`end_line < start_line` is reported as an `InvalidRange`-class error,
and overlap errors name both offending (1-based) operation indices,
e.g. `[2,4]` and `[4,6]` overlap. -/
theorem validateEditOperations_spec :
    (∀ (lines : List Text) (ops : List EditOperation),
      validateEditOperations lines ops = none ↔
        (∀ op ∈ ops, opWellFormed lines.length op) ∧
          ops.Pairwise (fun a b => operationsOverlap a b = false)) ∧
    validateEditOperations [[], [], [], []]
        [{ startLine := 10, endLine := 5, replacement := [] }] =
      some (.outOfBounds 1) ∧
    validateEditOperations [[], [], [], []]
        [{ startLine := 3, endLine := 2, replacement := [] }] =
      some (.invalidRangeOrder 1) ∧
    errClass (.invalidRangeOrder 1) = ErrClass.invalidRange ∧
    validateEditOperations [[], [], [], [], [], [], [], [], [], []]
        [{ startLine := 2, endLine := 4, replacement := [] },
         { startLine := 4, endLine := 6, replacement := [] }] =
      some (.overlapping 1 2) :=
  ⟨validateEditOperations_eq_none_iff, by decide, by decide, rfl, by decide⟩

/-- C4 (counterexample) -- The claim says an operation violating
`end_line ≥ start_line` is reported as `InvalidRange` before the
out-of-bounds check is consulted even when its line numbers also exceed
the buffer length; but on a 4-line buffer the operation
`{start_line 10, end_line 5}` is reported with the out-of-bounds error
(`OutOfBounds` class), not an `InvalidRange`-class error. -/
theorem validateEditOperations_order_counterexample :
    validateEditOperations [[], [], [], []]
        [{ startLine := 10, endLine := 5, replacement := [] }] =
      some (.outOfBounds 1) ∧
    errClass (.outOfBounds 1) ≠ ErrClass.invalidRange := by
  exact ⟨by decide, by decide⟩

/-! ## Properties of the exchange sort -/

/-- `types.TextInsertion`. -/
structure TextInsertion where
  line : Int
  content : Text
  before : Bool := false
deriving DecidableEq, Repr

theorem innerPassBy_perm (key : α → Int) (cur : α) (xs : List α) :
    (innerPassBy key cur xs).1 :: (innerPassBy key cur xs).2 ~ cur :: xs := by
  induction xs generalizing cur with
  | nil => simp [innerPassBy]
  | cons x xs ih =>
    simp only [innerPassBy]
    split
    · calc (innerPassBy key x xs).1 :: cur :: (innerPassBy key x xs).2
          ~ cur :: (innerPassBy key x xs).1 :: (innerPassBy key x xs).2 :=
            List.Perm.swap _ _ _
        _ ~ cur :: x :: xs := (ih x).cons cur
    · calc (innerPassBy key cur xs).1 :: x :: (innerPassBy key cur xs).2
          ~ x :: (innerPassBy key cur xs).1 :: (innerPassBy key cur xs).2 :=
            List.Perm.swap _ _ _
        _ ~ x :: cur :: xs := (ih cur).cons x
        _ ~ cur :: x :: xs := List.Perm.swap _ _ _

theorem innerPassBy_max (key : α → Int) (cur : α) (xs : List α) :
    key cur ≤ key (innerPassBy key cur xs).1 ∧
      ∀ y ∈ (innerPassBy key cur xs).2, key y ≤ key (innerPassBy key cur xs).1 := by
  induction xs generalizing cur with
  | nil => simp [innerPassBy]
  | cons x xs ih =>
    simp only [innerPassBy]
    split
    · rename_i hlt
      refine ⟨le_of_lt (lt_of_lt_of_le hlt (ih x).1), ?_⟩
      intro y hy
      simp only [List.mem_cons] at hy
      rcases hy with rfl | hy
      · exact le_of_lt (lt_of_lt_of_le hlt (ih x).1)
      · exact (ih x).2 y hy
    · rename_i hge
      push_neg at hge
      refine ⟨(ih cur).1, ?_⟩
      intro y hy
      simp only [List.mem_cons] at hy
      rcases hy with rfl | hy
      · exact le_trans hge (ih cur).1
      · exact (ih cur).2 y hy

theorem exchangeSortAux_perm (key : α → Int) :
    ∀ (n : Nat) (l : List α), l.length ≤ n → exchangeSortAux key n l ~ l := by
  intro n
  induction n with
  | zero =>
    intro l h
    have hl : l = [] := List.eq_nil_of_length_eq_zero (Nat.le_zero.mp h)
    subst hl
    simp [exchangeSortAux]
  | succ n ih =>
    intro l h
    match l with
    | [] => simp [exchangeSortAux]
    | x :: xs =>
      rw [exchangeSortAux]
      have hlen : (innerPassBy key x xs).2.length ≤ n := by
        rw [innerPassBy_length]
        simpa using h
      exact ((ih _ hlen).cons _).trans (innerPassBy_perm key x xs)

theorem exchangeSortBy_perm (key : α → Int) (l : List α) :
    exchangeSortBy key l ~ l :=
  exchangeSortAux_perm key l.length l (le_refl _)

theorem exchangeSortAux_pairwise (key : α → Int) :
    ∀ (n : Nat) (l : List α), l.length ≤ n →
      (exchangeSortAux key n l).Pairwise (fun a b => key b ≤ key a) := by
  intro n
  induction n with
  | zero =>
    intro l h
    have hl : l = [] := List.eq_nil_of_length_eq_zero (Nat.le_zero.mp h)
    subst hl
    simp [exchangeSortAux]
  | succ n ih =>
    intro l h
    match l with
    | [] => simp [exchangeSortAux]
    | x :: xs =>
      rw [exchangeSortAux]
      have hlen : (innerPassBy key x xs).2.length ≤ n := by
        rw [innerPassBy_length]
        simpa using h
      refine List.Pairwise.cons ?_ (ih _ hlen)
      intro b hb
      have hmem : b ∈ (innerPassBy key x xs).2 :=
        (exchangeSortAux_perm key n _ hlen).mem_iff.mp hb
      exact (innerPassBy_max key x xs).2 b hmem

theorem exchangeSortBy_pairwise (key : α → Int) (l : List α) :
    (exchangeSortBy key l).Pairwise (fun a b => key b ≤ key a) :=
  exchangeSortAux_pairwise key l.length l (le_refl _)

theorem pairwise_and {R S : α → α → Prop} :
    ∀ {l : List α}, l.Pairwise R → l.Pairwise S →
      l.Pairwise (fun a b => R a b ∧ S a b) := by
  intro l hR hS
  induction l with
  | nil => simp
  | cons x xs ih =>
    rw [List.pairwise_cons] at hR hS ⊢
    exact ⟨fun b hb => ⟨hR.1 b hb, hS.1 b hb⟩, ih hR.2 hS.2⟩

theorem eq_of_perm_of_pairwise_strict (key : α → Int) {l₁ l₂ : List α}
    (hp : l₁ ~ l₂)
    (h₁ : l₁.Pairwise (fun a b => key b < key a))
    (h₂ : l₂.Pairwise (fun a b => key b < key a)) : l₁ = l₂ := by
  haveI : IsAntisymm α (fun a b => key b < key a) :=
    ⟨fun a b hab hba => absurd (lt_trans hab hba) (lt_irrefl _)⟩
  exact List.eq_of_perm_of_sorted hp h₁ h₂

/-- A validated operation set has pairwise distinct start lines:
overlap would otherwise be detected, since each operation's range is
nonempty. -/
theorem startLine_ne_of_validated {lines : List Text}
    {ops : List EditOperation}
    (h : validateEditOperations lines ops = none) :
    ops.Pairwise (fun a b => a.startLine ≠ b.startLine) := by
  rw [validateEditOperations_eq_none_iff] at h
  obtain ⟨hwf, hov⟩ := h
  refine hov.imp_of_mem ?_
  intro a b ha hb hne
  have hwa := hwf a ha
  have hwb := hwf b hb
  simp only [opWellFormed] at hwa hwb
  simp only [operationsOverlap, Bool.not_eq_false', Bool.or_eq_true,
    decide_eq_true_eq, Bool.not_eq_true, Bool.or_eq_false_iff,
    decide_eq_false_iff_not, not_lt] at hne
  rcases hne with h1 | h1 <;> omega

/-- C5 (counterexample) -- The claim says the descending sort preserves
request order between operations with equal `start_line`; but on the
request `[A(start 1), B(start 1), C(start 2)]` the exchange sort
produces `[C, B, A]`: the two tied operations `A ≠ B` come out in
reversed request order (the first inner pass swaps `A` to the slot `C`
occupied, behind `B`). -/
theorem sortOperationsByLine_tie_counterexample :
    sortOperationsByLine
        [{ startLine := 1, endLine := 1, replacement := ['A'] },
         { startLine := 1, endLine := 1, replacement := ['B'] },
         { startLine := 2, endLine := 2, replacement := ['C'] }] =
      [{ startLine := 2, endLine := 2, replacement := ['C'] },
       { startLine := 1, endLine := 1, replacement := ['B'] },
       { startLine := 1, endLine := 1, replacement := ['A'] }] ∧
    ({ startLine := 1, endLine := 1, replacement := ['A'] } :
        EditOperation) ≠
      { startLine := 1, endLine := 1, replacement := ['B'] } := by
  exact ⟨by decide, by decide⟩

/-- C5 (amended) -- The scheduler's descending sort (used both for edit
operations and, with key `line`, for text insertions) deterministically
returns a permutation of the request that is sorted by non-increasing
start line, but ties are NOT generally kept in request order: a tied
pair followed by a higher-keyed element comes out reversed
(`[A1, B1, C2] ↦ [C2, B1, A1]`, and likewise for insertions), although
a tied pair that is never displaced stays in request order
(`[A1, B1] ↦ [A1, B1]`). -/
theorem sortOperationsByLine_tie_behavior :
    (∀ l : List EditOperation, sortOperationsByLine l ~ l) ∧
    (∀ l : List EditOperation,
      (sortOperationsByLine l).Pairwise
        (fun a b => b.startLine ≤ a.startLine)) ∧
    sortOperationsByLine
        [{ startLine := 1, endLine := 1, replacement := ['A'] },
         { startLine := 1, endLine := 1, replacement := ['B'] }] =
      [{ startLine := 1, endLine := 1, replacement := ['A'] },
       { startLine := 1, endLine := 1, replacement := ['B'] }] ∧
    sortOperationsByLine
        [{ startLine := 1, endLine := 1, replacement := ['A'] },
         { startLine := 1, endLine := 1, replacement := ['B'] },
         { startLine := 2, endLine := 2, replacement := ['C'] }] =
      [{ startLine := 2, endLine := 2, replacement := ['C'] },
       { startLine := 1, endLine := 1, replacement := ['B'] },
       { startLine := 1, endLine := 1, replacement := ['A'] }] ∧
    exchangeSortBy (fun ins => ins.line)
        [({ line := 1, content := ['X'] } : TextInsertion),
         { line := 1, content := ['Y'] },
         { line := 2, content := ['Z'] }] =
      [{ line := 2, content := ['Z'] },
       { line := 1, content := ['Y'] },
       { line := 1, content := ['X'] }] :=
  ⟨fun l => exchangeSortBy_perm _ l,
   fun l => exchangeSortBy_pairwise _ l,
   by decide, by decide, by decide⟩

/-- C6 -- For every buffer and every operation set that passes
validation, applying the set via the descending-sort-then-splice
algorithm yields the same final buffer for every permutation of the
operations' order in the request (validated operations have pairwise
distinct start lines, so the descending sort maps every permutation to
one and the same sorted sequence). -/
theorem applyOps_order_invariant :
    ∀ (lines : List Text) (ops ops' : List EditOperation),
      validateEditOperations lines ops = none → ops' ~ ops →
      applyOps lines (sortOperationsByLine ops') =
        applyOps lines (sortOperationsByLine ops) := by
  intro lines ops ops' hv hp
  have hsymm : ∀ {x y : EditOperation},
      x.startLine ≠ y.startLine → y.startLine ≠ x.startLine :=
    fun h => Ne.symm h
  have hne : ops.Pairwise (fun a b => a.startLine ≠ b.startLine) :=
    startLine_ne_of_validated hv
  have hne' : ops'.Pairwise (fun a b => a.startLine ≠ b.startLine) :=
    (hp.pairwise_iff hsymm).mpr hne
  have strict : ∀ l : List EditOperation,
      l.Pairwise (fun a b => a.startLine ≠ b.startLine) →
      (sortOperationsByLine l).Pairwise
        (fun a b => b.startLine < a.startLine) := by
    intro l hl
    have h1 := exchangeSortBy_pairwise
      (fun op : EditOperation => op.startLine) l
    have h2 : (sortOperationsByLine l).Pairwise
        (fun a b => a.startLine ≠ b.startLine) :=
      ((exchangeSortBy_perm _ l).pairwise_iff hsymm).mpr hl
    exact (pairwise_and h1 h2).imp
      (fun h => lt_of_le_of_ne h.1 (Ne.symm h.2))
  have hperm : sortOperationsByLine ops' ~ sortOperationsByLine ops :=
    ((exchangeSortBy_perm _ ops').trans hp).trans
      (exchangeSortBy_perm _ ops).symm
  have heq : sortOperationsByLine ops' = sortOperationsByLine ops :=
    eq_of_perm_of_pairwise_strict (fun op => op.startLine) hperm
      (strict ops' hne') (strict ops hne)
  rw [heq]

/-- Witness for `applyOps_order_invariant`: the spec's multi-operation
scenario, submitted in both orders. -/
theorem applyOps_order_invariant_witness :
    validateEditOperations [['1'], ['2'], ['3'], ['4'], ['5']]
        [{ startLine := 1, endLine := 1, replacement := ['A'] },
         { startLine := 4, endLine := 5, replacement := ['B', '\n', 'C'] }] =
      none ∧
    applyOps [['1'], ['2'], ['3'], ['4'], ['5']]
        (sortOperationsByLine
          [{ startLine := 4, endLine := 5, replacement := ['B', '\n', 'C'] },
           { startLine := 1, endLine := 1, replacement := ['A'] }]) =
      applyOps [['1'], ['2'], ['3'], ['4'], ['5']]
        (sortOperationsByLine
          [{ startLine := 1, endLine := 1, replacement := ['A'] },
           { startLine := 4, endLine := 5, replacement := ['B', '\n', 'C'] }]) :=
  ⟨by decide,
   applyOps_order_invariant _ _ _ (by decide) (by decide)⟩

/-! ## Path sandbox (`common.IsPathAllowed`, `common.IsSubPath`) -/

/-- The comparison at the end of `IsSubPath`:
`len(path) >= len(parent) && path[:len(parent)] == parent`, i.e. the
first argument is a leading segment of the second. -/
def prefixCheck : Path → Path → Bool
  | [], _ => true
  | _ :: _, [] => false
  | a :: as, b :: bs => a == b && prefixCheck as bs

theorem prefixCheck_iff (pre l : Path) :
    prefixCheck pre l = true ↔ ∃ t, pre ++ t = l := by
  induction pre generalizing l with
  | nil => simp [prefixCheck]
  | cons a as ih =>
    cases l with
    | nil =>
      simp [prefixCheck]
    | cons b bs =>
      simp only [prefixCheck, Bool.and_eq_true, beq_iff_eq, ih,
        List.cons_append, List.cons.injEq]
      constructor
      · rintro ⟨rfl, t, rfl⟩
        exact ⟨t, rfl, rfl⟩
      · rintro ⟨t, rfl, rfl⟩
        exact ⟨rfl, t, rfl⟩

/-- The padding step of `IsSubPath`: append the separator unless the
string already ends with it (Go inspects `s[len(s)-1]`, so this models
nonempty inputs, the only ones `filepath.Abs` produces). -/
def ensureSep (p : Path) : Path :=
  if p.getLast? = some '/' then p else p ++ ['/']

/-- `common.IsSubPath`: pad both paths with a trailing separator and
compare by prefix. -/
def isSubPath (path parent : Path) : Bool :=
  prefixCheck (ensureSep parent) (ensureSep path)

/-- `common.IsPathAllowed`: absolutize the path (failure means not
allowed), then test `IsSubPath` against each absolutized allow-list
entry, skipping entries whose absolutization fails.  `filepath.Abs` is
modelled by the oracle `absFn`. -/
def isPathAllowed (absFn : Path → Option Path)
    (allowedDirectories : List Path) (path : Path) : Bool :=
  match absFn path with
  | none => false
  | some absPath =>
    allowedDirectories.any fun allowedDir =>
      match absFn allowedDir with
      | none => false
      | some allowedAbs => isSubPath absPath allowedAbs

/-- A canonical absolute path as produced by `filepath.Abs` away from
the root: nonempty and without a trailing separator. -/
def CanonPath (p : Path) : Prop :=
  p ≠ [] ∧ p.getLast? ≠ some '/'

instance (p : Path) : Decidable (CanonPath p) := by
  unfold CanonPath; infer_instance

theorem ensureSep_of_canon {p : Path} (h : CanonPath p) :
    ensureSep p = p ++ ['/'] := by
  simp [ensureSep, h.2]

theorem isSubPath_canon_iff {p d : Path} (hp : CanonPath p)
    (hd : CanonPath d) :
    isSubPath p d = true ↔ p = d ∨ ∃ r, p = d ++ '/' :: r := by
  rw [isSubPath, ensureSep_of_canon hp, ensureSep_of_canon hd,
    prefixCheck_iff]
  constructor
  · rintro ⟨t, ht⟩
    rcases List.eq_nil_or_concat t with rfl | ⟨t₀, c, rfl⟩
    · left
      rw [List.append_nil] at ht
      have := congrArg List.dropLast ht
      simp only [List.dropLast_concat] at this
      exact this.symm
    · right
      refine ⟨t₀, ?_⟩
      have ht' : ((d ++ ['/'] ++ t₀) ++ [c]) = p ++ ['/'] := by
        simpa [List.append_assoc] using ht
      have := congrArg List.dropLast ht'
      simp only [List.dropLast_concat] at this
      rw [← this]
      simp
  · rintro (rfl | ⟨r, rfl⟩)
    · exact ⟨[], by simp⟩
    · exact ⟨r ++ ['/'], by simp⟩

/-- C2 -- `is_allowed(p)` is true iff the absolute form of `p` is equal
to, or a descendant of (with a directory-separator boundary, not merely
a string prefix), at least one allow-list entry's absolute form; for
allow-list entry `/tmp` the sibling `/tmp-evil/x` is not allowed; and a
path whose absolutization fails is not allowed.  (Stated for canonical
absolute forms: nonempty, no trailing separator.) -/
theorem isPathAllowed_spec :
    (∀ (absFn : Path → Option Path) (dirs : List Path) (p : Path),
      absFn p = some p → (∀ d ∈ dirs, absFn d = some d) →
      CanonPath p → (∀ d ∈ dirs, CanonPath d) →
      (isPathAllowed absFn dirs p = true ↔
        ∃ d ∈ dirs, p = d ∨ ∃ r, p = d ++ '/' :: r)) ∧
    (∀ (absFn : Path → Option Path) (dirs : List Path) (p : Path),
      absFn p = none → isPathAllowed absFn dirs p = false) ∧
    isPathAllowed (fun q => some q) ["/tmp".toList]
        "/tmp-evil/x".toList = false := by
  refine ⟨?_, ?_, by decide⟩
  · intro absFn dirs p habs hdirs hcp hcd
    simp only [isPathAllowed, habs, List.any_eq_true]
    constructor
    · rintro ⟨d, hd, hsub⟩
      rw [hdirs d hd] at hsub
      exact ⟨d, hd, (isSubPath_canon_iff hcp (hcd d hd)).mp hsub⟩
    · rintro ⟨d, hd, hrel⟩
      refine ⟨d, hd, ?_⟩
      rw [hdirs d hd]
      exact (isSubPath_canon_iff hcp (hcd d hd)).mpr hrel
  · intro absFn dirs p habs
    simp [isPathAllowed, habs]

/-- Witness for `isPathAllowed_spec`: the characterization instantiated
on allow-list `[/tmp]` and path `/tmp/x`. -/
theorem isPathAllowed_spec_witness :
    isPathAllowed (fun q => some q) ["/tmp".toList] "/tmp/x".toList =
        true ↔
      ∃ d ∈ ["/tmp".toList], "/tmp/x".toList = d ∨
        ∃ r, "/tmp/x".toList = d ++ '/' :: r :=
  isPathAllowed_spec.1 (fun q => some q) ["/tmp".toList] "/tmp/x".toList
    rfl (fun _ _ => rfl) (by decide)
    (by
      intro d hd
      rw [List.mem_singleton] at hd
      subst hd
      decide)

/-! ## Filesystem model -/

/-- Filesystem state: the contents on disk, plus which paths a write
(`os.WriteFile`) would currently succeed on — a write can fail even for
a readable file (read-only file, full disk, permissions). -/
structure FSx where
  files : List (Path × Text)
  writeOK : Path → Bool

def lookupFile : List (Path × Text) → Path → Option Text
  | [], _ => none
  | (q, t) :: rest, p => if q = p then some t else lookupFile rest p

/-- `os.ReadFile`. -/
def readFile (fs : FSx) (p : Path) : Option Text :=
  lookupFile fs.files p

def setFile : List (Path × Text) → Path → Text → List (Path × Text)
  | [], p, t => [(p, t)]
  | (q, u) :: rest, p, t =>
    if q = p then (p, t) :: rest else (q, u) :: setFile rest p t

/-- `os.WriteFile`: create or truncate; fails exactly on the paths
`writeOK` rejects. -/
def writeFile (fs : FSx) (p : Path) (t : Text) : Option FSx :=
  if fs.writeOK p then some { fs with files := setFile fs.files p t }
  else none

theorem lookupFile_set_same (files : List (Path × Text)) (p : Path)
    (t : Text) : lookupFile (setFile files p t) p = some t := by
  induction files with
  | nil => simp [setFile, lookupFile]
  | cons e rest ih =>
    obtain ⟨q, u⟩ := e
    simp only [setFile]
    split
    · simp [lookupFile]
    · rename_i h
      simp [lookupFile, h, ih]

theorem lookupFile_set_other (files : List (Path × Text)) {p q : Path}
    (h : q ≠ p) (t : Text) :
    lookupFile (setFile files p t) q = lookupFile files q := by
  induction files with
  | nil => simp [setFile, lookupFile, Ne.symm h]
  | cons e rest ih =>
    obtain ⟨r, u⟩ := e
    simp only [setFile]
    split
    · rename_i hr
      subst hr
      simp [lookupFile, Ne.symm h]
    · simp only [lookupFile, ih]

theorem readFile_writeFile_same {fs : FSx} {p : Path} {t : Text}
    {fs' : FSx} (h : writeFile fs p t = some fs') :
    readFile fs' p = some t := by
  simp only [writeFile] at h
  split at h
  · cases h
    simp [readFile, lookupFile_set_same]
  · cases h

theorem readFile_writeFile_other {fs : FSx} {p : Path} {t : Text}
    {fs' : FSx} (h : writeFile fs p t = some fs') {q : Path}
    (hq : q ≠ p) : readFile fs' q = readFile fs q := by
  simp only [writeFile] at h
  split at h
  · cases h
    simp [readFile, lookupFile_set_other _ hq]
  · cases h

/-! ## Backups (`common.CreateBackup`) -/

/-- `filePath + ".backup." + fmt.Sprintf("%d", time.Now().Unix())`. -/
def backupName (filePath : Path) (ts : Nat) : Path :=
  filePath ++ ".backup.".toList ++ (toString ts).toList

theorem backupName_ne (filePath : Path) (ts : Nat) :
    backupName filePath ts ≠ filePath := by
  intro h
  have hlen := congrArg List.length h
  have h8 : (".backup.".toList).length = 8 := by decide
  simp only [backupName, List.length_append, h8] at hlen
  omega

/-- `common.CreateBackup`: build the timestamped sibling name, read the
original bytes, write them unmodified to that name; `none` models the
two Go error returns. -/
def createBackup (fs : FSx) (filePath : Path) (ts : Nat) :
    Option (FSx × Path) :=
  match readFile fs filePath with
  | none => none
  | some content =>
    match writeFile fs (backupName filePath ts) content with
    | none => none
    | some fs' => some (fs', backupName filePath ts)

theorem createBackup_name {fs : FSx} {filePath : Path} {ts : Nat}
    {fs' : FSx} {bp : Path} (h : createBackup fs filePath ts = some (fs', bp)) :
    bp = backupName filePath ts := by
  simp only [createBackup] at h
  split at h
  · cases h
  · split at h
    · cases h
    · cases h
      rfl

theorem createBackup_content {fs : FSx} {filePath : Path} {ts : Nat}
    {fs' : FSx} {bp : Path}
    (h : createBackup fs filePath ts = some (fs', bp)) :
    readFile fs' bp = readFile fs filePath := by
  simp only [createBackup] at h
  split at h
  · cases h
  · rename_i content hread
    split at h
    · cases h
    · rename_i fs'' hwrite
      cases h
      rw [readFile_writeFile_same hwrite, hread]

theorem createBackup_other {fs : FSx} {filePath : Path} {ts : Nat}
    {fs' : FSx} {bp : Path}
    (h : createBackup fs filePath ts = some (fs', bp)) {q : Path}
    (hq : q ≠ backupName filePath ts) : readFile fs' q = readFile fs q := by
  simp only [createBackup] at h
  split at h
  · cases h
  · split at h
    · cases h
    · rename_i fs'' hwrite
      cases h
      exact readFile_writeFile_other hwrite hq

/-! ## Previews (`common.GenerateEditPreview`) -/

/-- One operation's block in the preview text: the header range, the
original lines in range (`i` runs from `StartLine-1` while
`i < EndLine` and `i < len(lines)`), the replacement split plainly on
LF (this Go function uses `strings.Split`, not `SplitLines`), and the
description. -/
structure PreviewEntry where
  startLine : Int
  endLine : Int
  original : List Text
  replacement : List Text
  description : Text
deriving DecidableEq, Repr

def generateEditPreview (lines : List Text)
    (operations : List EditOperation) : List PreviewEntry :=
  operations.map fun op =>
    { startLine := op.startLine
      endLine := op.endLine
      original :=
        (lines.take (min op.endLine.toNat lines.length)).drop
          (op.startLine - 1).toNat
      replacement := splitNL op.replacement
      description := op.description }

/-! ## Single-file editing (`handlers.HandleEditFile`) -/

inductive EditErr
  | pathNotAllowed
  | fileUnreadable
  | invalidOperations (e : ValidationError)
  | backupFailed
  | writeFailed
  /-- non-atomic mode: "Failed to write file at operation %d". -/
  | writeFailedAt (i : Nat)
deriving DecidableEq, Repr

inductive EditFileResult
  | error (e : EditErr)
  | preview (entries : List PreviewEntry)
  | ok (nOps : Nat)
deriving DecidableEq, Repr

/-- The non-atomic application loop of `HandleEditFile`: apply each
operation and write the file after each one; a failed write aborts with
the 1-based operation number, leaving the previous operations' writes
persisted. -/
def applyEachWrite (path : Path) : FSx → List Text → Nat →
    List EditOperation → FSx × List Text × Option Nat
  | fs, lines, _, [] => (fs, lines, none)
  | fs, lines, i, op :: rest =>
    match writeFile fs path (joinLines (applyOp lines op)) with
    | none => (fs, applyOp lines op, some (i + 1))
    | some fs' => applyEachWrite path fs' (applyOp lines op) (i + 1) rest

/-- The write phase of `HandleEditFile`: atomic mode applies all
operations in memory and writes once; non-atomic mode writes after each
operation. -/
def editWritePhase (path : Path) (lines : List Text)
    (sortedOps : List EditOperation) (nOps : Nat) (atomic : Bool)
    (fs : FSx) : FSx × EditFileResult :=
  if atomic then
    match writeFile fs path (joinLines (applyOps lines sortedOps)) with
    | none => (fs, .error .writeFailed)
    | some fs' => (fs', .ok nOps)
  else
    match applyEachWrite path fs lines 0 sortedOps with
    | (fs', _, some i) => (fs', .error (.writeFailedAt i))
    | (fs', _, none) => (fs', .ok nOps)

/-- `handlers.HandleEditFile`: allow-list check, read, optional
validation, descending sort, preview short-circuit, optional backup,
then the write phase. -/
def handleEditFile (absFn : Path → Option Path) (dirs : List Path)
    (fs : FSx) (path : Path) (operations : List EditOperation)
    (createBackupFlag validateOperations showPreview atomic : Bool)
    (ts : Nat) : FSx × EditFileResult :=
  if isPathAllowed absFn dirs path = false then
    (fs, .error .pathNotAllowed)
  else
    match readFile fs path with
    | none => (fs, .error .fileUnreadable)
    | some content =>
      let lines := splitLines content
      match
        (if validateOperations then validateEditOperations lines operations
         else none) with
      | some e => (fs, .error (.invalidOperations e))
      | none =>
        let sortedOps := sortOperationsByLine operations
        if showPreview then
          (fs, .preview (generateEditPreview lines sortedOps))
        else if createBackupFlag then
          match createBackup fs path ts with
          | none => (fs, .error .backupFailed)
          | some (fs1, _) =>
            editWritePhase path lines sortedOps operations.length atomic fs1
        else
          editWritePhase path lines sortedOps operations.length atomic fs

/-- The non-atomic write loop only ever writes to `path`. -/
theorem applyEachWrite_other (path : Path) :
    ∀ (fs : FSx) (lines : List Text) (i : Nat)
      (ops : List EditOperation) {q : Path}, q ≠ path →
      readFile (applyEachWrite path fs lines i ops).1 q = readFile fs q := by
  intro fs lines i ops
  induction ops generalizing fs lines i with
  | nil => intro q hq; rfl
  | cons op rest ih =>
    intro q hq
    simp only [applyEachWrite]
    cases hw : writeFile fs path (joinLines (applyOp lines op)) with
    | none => rfl
    | some fs' =>
      rw [ih fs' _ _ hq, readFile_writeFile_other hw hq]

/-- C8 (counterexample) -- The claim says backup never overwrites an
existing backup file that already has the same name; but starting from
a filesystem holding `f ↦ "NEW"` and a previous backup
`f.backup.5 ↦ "OLD"`, `createBackup` at timestamp 5 succeeds and leaves
`f.backup.5 ↦ "NEW"`: the existing backup was overwritten
(`os.WriteFile` creates or truncates). -/
theorem createBackup_overwrites_counterexample :
    (createBackup
        { files := [("f".toList, "NEW".toList),
                    ("f.backup.5".toList, "OLD".toList)],
          writeOK := fun _ => true }
        "f".toList 5).map
        (fun r => (readFile r.1 "f.backup.5".toList, r.2)) =
      some (some "NEW".toList, "f.backup.5".toList) ∧
    readFile
        { files := [("f".toList, "NEW".toList),
                    ("f.backup.5".toList, "OLD".toList)],
          writeOK := fun _ => true }
        "f.backup.5".toList = some "OLD".toList ∧
    (some "NEW".toList : Option Text) ≠ some "OLD".toList := by
  exact ⟨by decide, by decide, by decide⟩

/-- C8 (amended) -- `backup(path)` writes the file's current bytes
unmodified to exactly `path + ".backup." + <unix_timestamp>`, and after
a successful edit with `create_backup=true` the backup file's content
equals the original pre-write content; however, on a timestamp
collision an existing backup file with the same name IS overwritten
(`os.WriteFile` truncates), as the accompanying counterexample shows. -/
theorem createBackup_spec :
    (∀ (fs : FSx) (filePath : Path) (ts : Nat) (fs' : FSx) (bp : Path),
      createBackup fs filePath ts = some (fs', bp) →
      bp = filePath ++ ".backup.".toList ++ (toString ts).toList ∧
      readFile fs' bp = readFile fs filePath) ∧
    (∀ (absFn : Path → Option Path) (dirs : List Path) (fs : FSx)
      (path : Path) (ops : List EditOperation)
      (validateOps showPreview atomic : Bool) (ts : Nat) (fs' : FSx)
      (n : Nat),
      handleEditFile absFn dirs fs path ops true validateOps showPreview
          atomic ts = (fs', .ok n) →
      readFile fs' (backupName path ts) = readFile fs path) := by
  constructor
  · intro fs filePath ts fs' bp h
    exact ⟨createBackup_name h, createBackup_content h⟩
  · intro absFn dirs fs path ops validateOps showPreview atomic ts fs' n h
    simp only [handleEditFile] at h
    split at h
    · simp at h
    · split at h
      · simp at h
      · rename_i content hread
        split at h
        · simp at h
        · split at h
          · simp at h
          · rw [if_pos trivial] at h
            split at h
            · simp at h
            · rename_i fs1 bp hback
              have hbp := createBackup_name hback
              subst hbp
              have hcontent := createBackup_content hback
              simp only [editWritePhase] at h
              split at h
              · split at h
                · simp at h
                · rename_i fs2 hwrite
                  have hfs : fs2 = fs' := by
                    simpa using congrArg Prod.fst h
                  subst hfs
                  rw [readFile_writeFile_other hwrite
                    (backupName_ne path ts), hcontent]
              · split at h
                · simp at h
                · rename_i heq
                  have hfs : (applyEachWrite path fs1
                      (splitLines content) 0
                      (sortOperationsByLine ops)).1 = fs' := by
                    rw [heq]
                    simpa using congrArg Prod.fst h
                  rw [← hfs,
                    applyEachWrite_other path fs1 _ 0 _
                      (backupName_ne path ts), hcontent]

/-- Witness for `createBackup_spec`: a successful backup of `f ↦ "hi"`
at timestamp 7, and the backup left by a successful backed-up edit of
`/t/a ↦ "x"` re-read as the original content. -/
theorem createBackup_spec_witness :
    (createBackup
        { files := [("f".toList, "hi".toList)],
          writeOK := fun _ => true }
        "f".toList 7).map
        (fun r => (r.2, readFile r.1 r.2)) =
      some ("f.backup.7".toList, some "hi".toList) ∧
    readFile (handleEditFile (fun q => some q) ["/t".toList]
        { files := [("/t/a".toList, "x".toList)],
          writeOK := fun _ => true }
        "/t/a".toList
        [{ startLine := 1, endLine := 1, replacement := "X".toList }]
        true true false true 0).1 (backupName "/t/a".toList 0) =
      some "x".toList := by
  constructor
  · obtain ⟨fs', bp, hcb⟩ :
        ∃ fs' bp, createBackup
          { files := [("f".toList, "hi".toList)],
            writeOK := fun _ => true }
          "f".toList 7 = some (fs', bp) := ⟨_, _, rfl⟩
    obtain ⟨h1, h2⟩ := createBackup_spec.1 _ _ _ _ _ hcb
    rw [hcb]
    rw [Option.map_some']
    dsimp only
    rw [h2, h1]
    decide
  · have h2 : (handleEditFile (fun q => some q) ["/t".toList]
        { files := [("/t/a".toList, "x".toList)],
          writeOK := fun _ => true }
        "/t/a".toList
        [{ startLine := 1, endLine := 1, replacement := "X".toList }]
        true true false true 0).2 = .ok 1 := by decide
    have hmain := createBackup_spec.2 (fun q => some q) ["/t".toList]
      { files := [("/t/a".toList, "x".toList)],
        writeOK := fun _ => true }
      "/t/a".toList
      [{ startLine := 1, endLine := 1, replacement := "X".toList }]
      true false true 0 _ 1 (Prod.ext rfl h2)
    exact hmain.trans (by decide)

/-! ## Multi-file batch editing (`handlers.HandleEditMultipleFiles`) -/

/-- `types.FileEditRequest`. -/
structure FileEditRequest where
  path : Path
  operations : List EditOperation
  createBackup : Bool := false
deriving DecidableEq, Repr

/-- The per-file error strings of `HandleEditMultipleFiles`, as
structured values carrying the data each message interpolates
(indices are the 1-based "file %d" of the messages). -/
inductive BatchErr
  /-- "Access to path %s (file %d) is not allowed" -/
  | pathNotAllowed (i : Nat) (p : Path)
  /-- validation pre-pass: "File %s (file %d) is not accessible" -/
  | notAccessible (i : Nat) (p : Path)
  /-- "Invalid operations in file %s: ..." -/
  | invalidOperations (p : Path) (e : ValidationError)
  /-- processing loop: "Failed to read file %s" -/
  | readFailed (p : Path)
  /-- "Failed to create backup for %s" -/
  | backupFailed (p : Path)
  /-- "Failed to write file %s" -/
  | writeFailed (p : Path)
deriving DecidableEq, Repr

inductive BatchItem
  /-- dry run: "File: %s\n<preview>" -/
  | preview (p : Path) (entries : List PreviewEntry)
  /-- "Successfully applied %d operations to %s" -/
  | applied (p : Path) (nOps : Nat)
deriving DecidableEq, Repr

inductive BatchOutcome
  /-- an `mcp.NewToolResultError` return from inside a loop -/
  | fatal (e : BatchErr)
  /-- "Validation failed: " joined errors (atomic, after the pre-pass) -/
  | fatalValidation (errs : List BatchErr)
  /-- the final text result assembled from `results` and `errors` -/
  | output (dryRun : Bool) (results : List BatchItem)
      (errs : List BatchErr)
deriving DecidableEq, Repr

/-- The validation pre-pass of `HandleEditMultipleFiles` (run when
`validate_all` or `atomic`): per file check allow-list, readability and
operation validity; under `atomic` the first failure returns
immediately, otherwise failures are accumulated.  The filesystem is
only read. -/
def validatePass (absFn : Path → Option Path) (dirs : List Path)
    (fs : FSx) (atomic : Bool) : Nat → List FileEditRequest →
    List BatchErr → Except BatchErr (List BatchErr)
  | _, [], errs => .ok errs
  | i, req :: rest, errs =>
    if isPathAllowed absFn dirs req.path = false then
      if atomic then .error (.pathNotAllowed (i + 1) req.path)
      else validatePass absFn dirs fs atomic (i + 1) rest
        (errs ++ [.pathNotAllowed (i + 1) req.path])
    else
      match readFile fs req.path with
      | none =>
        if atomic then .error (.notAccessible (i + 1) req.path)
        else validatePass absFn dirs fs atomic (i + 1) rest
          (errs ++ [.notAccessible (i + 1) req.path])
      | some content =>
        match validateEditOperations (splitLines content) req.operations with
        | some e =>
          if atomic then .error (.invalidOperations req.path e)
          else validatePass absFn dirs fs atomic (i + 1) rest
            (errs ++ [.invalidOperations req.path e])
        | none => validatePass absFn dirs fs atomic (i + 1) rest errs

/-- The processing loop of `HandleEditMultipleFiles`.  Per file:
allow-list check, read, dry-run preview short-circuit, optional backup,
descending sort, in-memory application, single write.  Under `atomic` a
failure returns the error immediately — with every write already made
to earlier files left in place; otherwise the error is recorded and the
loop continues (`continue_on_error`) or stops. -/
def processFiles (absFn : Path → Option Path) (dirs : List Path)
    (ts : Nat) (atomic dryRun continueOnError : Bool) :
    FSx → Nat → List FileEditRequest → List BatchItem → List BatchErr →
    FSx × BatchOutcome
  | fs, _, [], results, errs => (fs, .output dryRun results errs)
  | fs, i, req :: rest, results, errs =>
    if isPathAllowed absFn dirs req.path = false then
      if atomic then (fs, .fatal (.pathNotAllowed (i + 1) req.path))
      else if continueOnError then
        processFiles absFn dirs ts atomic dryRun continueOnError fs (i + 1)
          rest results (errs ++ [.pathNotAllowed (i + 1) req.path])
      else
        (fs, .output dryRun results (errs ++ [.pathNotAllowed (i + 1) req.path]))
    else
      match readFile fs req.path with
      | none =>
        if atomic then (fs, .fatal (.readFailed req.path))
        else if continueOnError then
          processFiles absFn dirs ts atomic dryRun continueOnError fs (i + 1)
            rest results (errs ++ [.readFailed req.path])
        else (fs, .output dryRun results (errs ++ [.readFailed req.path]))
      | some content =>
        let lines := splitLines content
        if dryRun then
          processFiles absFn dirs ts atomic dryRun continueOnError fs (i + 1)
            rest
            (results ++ [.preview req.path (generateEditPreview lines req.operations)])
            errs
        else if req.createBackup then
          match createBackup fs req.path ts with
          | none =>
            if atomic then (fs, .fatal (.backupFailed req.path))
            else if continueOnError then
              processFiles absFn dirs ts atomic dryRun continueOnError fs
                (i + 1) rest results (errs ++ [.backupFailed req.path])
            else (fs, .output dryRun results (errs ++ [.backupFailed req.path]))
          | some (fs1, _) =>
            match writeFile fs1 req.path
                (joinLines (applyOps lines (sortOperationsByLine req.operations))) with
            | none =>
              if atomic then (fs1, .fatal (.writeFailed req.path))
              else if continueOnError then
                processFiles absFn dirs ts atomic dryRun continueOnError fs1
                  (i + 1) rest results (errs ++ [.writeFailed req.path])
              else
                (fs1, .output dryRun results (errs ++ [.writeFailed req.path]))
            | some fs2 =>
              processFiles absFn dirs ts atomic dryRun continueOnError fs2
                (i + 1) rest
                (results ++ [.applied req.path req.operations.length]) errs
        else
          match writeFile fs req.path
              (joinLines (applyOps lines (sortOperationsByLine req.operations))) with
          | none =>
            if atomic then (fs, .fatal (.writeFailed req.path))
            else if continueOnError then
              processFiles absFn dirs ts atomic dryRun continueOnError fs
                (i + 1) rest results (errs ++ [.writeFailed req.path])
            else (fs, .output dryRun results (errs ++ [.writeFailed req.path]))
          | some fs2 =>
            processFiles absFn dirs ts atomic dryRun continueOnError fs2
              (i + 1) rest
              (results ++ [.applied req.path req.operations.length]) errs

/-- `handlers.HandleEditMultipleFiles`: optional validation pre-pass
(run when `validate_all` or `atomic`; accumulated non-fatal errors are
carried into the final output), then the processing loop. -/
def handleEditMultipleFiles (absFn : Path → Option Path)
    (dirs : List Path) (fs : FSx) (fileRequests : List FileEditRequest)
    (atomic dryRun continueOnError validateAll : Bool) (ts : Nat) :
    FSx × BatchOutcome :=
  if validateAll || atomic then
    match validatePass absFn dirs fs atomic 0 fileRequests [] with
    | .error e => (fs, .fatal e)
    | .ok errs =>
      if atomic ∧ errs ≠ [] then (fs, .fatalValidation errs)
      else
        processFiles absFn dirs ts atomic dryRun continueOnError fs 0
          fileRequests [] errs
  else
    processFiles absFn dirs ts atomic dryRun continueOnError fs 0
      fileRequests [] []

/-- The processing loop never touches the filesystem under
`dry_run` (the dry-run short-circuit precedes backup and write). -/
theorem processFiles_dryRun (absFn : Path → Option Path)
    (dirs : List Path) (ts : Nat) (atomic co : Bool) :
    ∀ (fs : FSx) (i : Nat) (reqs : List FileEditRequest)
      (results : List BatchItem) (errs : List BatchErr),
      (processFiles absFn dirs ts atomic true co fs i reqs results
        errs).1 = fs := by
  intro fs i reqs
  induction reqs generalizing fs i with
  | nil => intro results errs; rfl
  | cons req rest ih =>
    intro results errs
    simp only [processFiles]
    split
    · split
      · rfl
      · split
        · exact ih fs (i + 1) _ _
        · rfl
    · split
      · split
        · rfl
        · split
          · exact ih fs (i + 1) _ _
          · rfl
      · rw [if_pos trivial]
        exact ih fs (i + 1) _ _

/-- C9 -- With `show_preview=true` (single-file edit) and with
`dry_run=true` (batch edit) the engine emits only preview or error
output and performs no mutation at all, regardless of the other flags
(including `create_backup=true`): the filesystem state comes back
unchanged, so no target file is written and no backup file is created,
and every file re-read afterwards is byte-identical to its pre-request
content. -/
theorem preview_dryRun_no_mutation :
    (∀ (absFn : Path → Option Path) (dirs : List Path) (fs : FSx)
      (path : Path) (ops : List EditOperation)
      (createBackupFlag validateOps atomic : Bool) (ts : Nat),
      (handleEditFile absFn dirs fs path ops createBackupFlag
          validateOps true atomic ts).1 = fs ∧
      ((∃ es, (handleEditFile absFn dirs fs path ops createBackupFlag
          validateOps true atomic ts).2 = .preview es) ∨
       (∃ e, (handleEditFile absFn dirs fs path ops createBackupFlag
          validateOps true atomic ts).2 = .error e))) ∧
    (∀ (absFn : Path → Option Path) (dirs : List Path) (fs : FSx)
      (reqs : List FileEditRequest) (atomic co validateAll : Bool)
      (ts : Nat),
      (handleEditMultipleFiles absFn dirs fs reqs atomic true co
          validateAll ts).1 = fs) := by
  constructor
  · intro absFn dirs fs path ops cb vo atm ts
    simp only [handleEditFile]
    split
    · exact ⟨rfl, Or.inr ⟨_, rfl⟩⟩
    · split
      · exact ⟨rfl, Or.inr ⟨_, rfl⟩⟩
      · split
        · exact ⟨rfl, Or.inr ⟨_, rfl⟩⟩
        · rw [if_pos trivial]
          exact ⟨rfl, Or.inl ⟨_, rfl⟩⟩
  · intro absFn dirs fs reqs atm co va ts
    simp only [handleEditMultipleFiles]
    split
    · split
      · rfl
      · split
        · rfl
        · exact processFiles_dryRun absFn dirs ts atm co fs 0 reqs [] _
    · exact processFiles_dryRun absFn dirs ts atm co fs 0 reqs [] []

/-! ## Text replacement (`common.ReplaceText`, `handlers.HandleReplaceText`) -/

/-- `strings.Index` scan: `indexOfSubAux pat i s` is the position of
the first occurrence of `pat` in `s`, offset by `i`. -/
def indexOfSubAux (pat : Text) : Nat → Text → Option Nat
  | i, [] => if prefixCheck pat [] then some i else none
  | i, c :: rest =>
    if prefixCheck pat (c :: rest) then some i
    else indexOfSubAux pat (i + 1) rest

/-- `strings.Index(s, pat)` (with `none` for Go's `-1`). -/
def indexOfSub (s pat : Text) : Option Nat :=
  indexOfSubAux pat 0 s

theorem indexOfSubAux_bound (pat : Text) :
    ∀ (i : Nat) (s : Text) (j : Nat), indexOfSubAux pat i s = some j →
      i ≤ j ∧ j - i + pat.length ≤ s.length := by
  intro i s
  induction s generalizing i with
  | nil =>
    intro j h
    simp only [indexOfSubAux] at h
    split at h
    · rename_i hp
      cases h
      rw [prefixCheck_iff] at hp
      obtain ⟨t, ht⟩ := hp
      have : pat.length ≤ ([] : Text).length := by
        rw [← ht]
        simp
      simp at this
      simp [this]
    · cases h
  | cons c rest ih =>
    intro j h
    simp only [indexOfSubAux] at h
    split at h
    · rename_i hp
      cases h
      rw [prefixCheck_iff] at hp
      obtain ⟨t, ht⟩ := hp
      have : pat.length + t.length = rest.length + 1 := by
        have := congrArg List.length ht
        simpa using this
      constructor
      · exact le_refl _
      · simp only [List.length_cons]
        omega
    · have := ih (i + 1) j h
      simp only [List.length_cons]
      omega

theorem indexOfSub_bound {s pat : Text} {j : Nat}
    (h : indexOfSub s pat = some j) : j + pat.length ≤ s.length := by
  have := indexOfSubAux_bound pat 0 s j h
  omega

/-- Go `strings.ToLower`, character-wise. -/
def toLowerText (t : Text) : Text :=
  t.map Char.toLower

/-- `strings.Count(content, find)` for nonempty `find` (the only way
`ReplaceText` calls it): non-overlapping occurrences, scanning left to
right. -/
def countOcc (pat : Text) : Text → Nat
  | [] => 0
  | c :: rest =>
    if h : pat ≠ [] ∧ prefixCheck pat (c :: rest) = true then
      1 + countOcc pat ((c :: rest).drop pat.length)
    else countOcc pat rest
termination_by s => s.length
decreasing_by
  · simp only [List.length_drop, List.length_cons]
    have : 0 < pat.length := List.length_pos.mpr h.1
    omega
  · simp

/-- `strings.Replace(s, old, new, n)` for nonempty `old` (the only way
`ReplaceText` calls it): replace the first `n` non-overlapping
occurrences, all of them when `n < 0`. -/
def replaceAtMost (old new : Text) : Text → Int → Text
  | [], _ => []
  | c :: rest, n =>
    if h : n ≠ 0 ∧ old ≠ [] ∧ prefixCheck old (c :: rest) = true then
      new ++ replaceAtMost old new ((c :: rest).drop old.length) (n - 1)
    else c :: replaceAtMost old new rest n
termination_by s _ => s.length
decreasing_by
  · simp only [List.length_drop, List.length_cons]
    have : 0 < old.length := List.length_pos.mpr h.2.1
    omega
  · simp

/-- The case-insensitive replacement loop of `ReplaceText`: find the
next occurrence of the lowered pattern in the lowered remainder, stop
when none is left or the replacement budget is exhausted, otherwise
emit the prefix and the replacement and continue after the original
occurrence.  (The `find = []` branch is unreachable: `ReplaceText`
rejects an empty pattern before reaching this loop.) -/
def replaceCILoop (find replaceW : Text) (maxReplacements : Int) :
    Text → Nat → Text × Nat
  | remaining, count =>
    match hidx : indexOfSub (toLowerText remaining) (toLowerText find) with
    | none => (remaining, count)
    | some index =>
      if maxReplacements > 0 ∧ maxReplacements ≤ (count : Int) then
        (remaining, count)
      else if hf : find = [] then (remaining, count)
      else
        match replaceCILoop find replaceW maxReplacements
            (remaining.drop (index + find.length)) (count + 1) with
        | (res, cnt) => (remaining.take index ++ replaceW ++ res, cnt)
termination_by remaining _ => remaining.length
decreasing_by
  have hb := indexOfSub_bound hidx
  have hl : (toLowerText remaining).length = remaining.length := by
    simp [toLowerText]
  have hfl : (toLowerText find).length = find.length := by
    simp [toLowerText]
  have hf1 : 0 < find.length := List.length_pos.mpr hf
  simp only [List.length_drop]
  omega

/-- The error cases of `common.ReplaceText`. -/
inductive ReplaceErr
  /-- "find pattern cannot be empty" -/
  | emptyFind
  /-- "regex and whole word replacements not implemented in this
  simplified version" -/
  | notImplemented
deriving DecidableEq, Repr

/-- `common.ReplaceText`: the simple case-sensitive branch, the manual
case-insensitive branch, and the unimplemented regex / whole-word
branch. -/
def replaceText (content find replaceW : Text)
    (regex caseSensitive wholeWord : Bool) (maxReplacements : Int) :
    Except ReplaceErr (Text × Nat) :=
  if find = [] then .error .emptyFind
  else if !regex && !wholeWord && caseSensitive then
    let count0 := countOcc find content
    let count :=
      if maxReplacements > 0 ∧ maxReplacements < (count0 : Int) then
        maxReplacements.toNat
      else count0
    .ok (replaceAtMost find replaceW content maxReplacements, count)
  else if !regex && !wholeWord && !caseSensitive then
    .ok (replaceCILoop find replaceW maxReplacements content 0)
  else .error .notImplemented

inductive ReplaceHandlerErr
  | pathNotAllowed
  | fileUnreadable
  | backupFailed
  | replaceFailed (e : ReplaceErr)
  | writeFailed
deriving DecidableEq, Repr

inductive ReplaceResult
  | error (e : ReplaceHandlerErr)
  /-- "Replaced %d occurrences in %s" -/
  | ok (count : Nat)
deriving DecidableEq, Repr

/-- `handlers.HandleReplaceText`: allow-list check, read, optional
backup, the replacement, then the write. -/
def handleReplaceText (absFn : Path → Option Path) (dirs : List Path)
    (fs : FSx) (path : Path) (find replaceW : Text)
    (regex caseSensitive wholeWord : Bool) (maxReplacements : Int)
    (createBackupFlag : Bool) (ts : Nat) : FSx × ReplaceResult :=
  if isPathAllowed absFn dirs path = false then
    (fs, .error .pathNotAllowed)
  else
    match readFile fs path with
    | none => (fs, .error .fileUnreadable)
    | some content =>
      let step := fun (fs1 : FSx) =>
        match replaceText content find replaceW regex caseSensitive
            wholeWord maxReplacements with
        | .error e => (fs1, ReplaceResult.error (.replaceFailed e))
        | .ok (newContent, count) =>
          match writeFile fs1 path newContent with
          | none => (fs1, ReplaceResult.error .writeFailed)
          | some fs2 => (fs2, ReplaceResult.ok count)
      if createBackupFlag then
        match createBackup fs path ts with
        | none => (fs, .error .backupFailed)
        | some (fs1, _) => step fs1
      else step fs

/-- With `regex` or `whole_word` requested, `ReplaceText` always
returns an error: the empty-pattern check fires first, and otherwise
both implemented branches require `!regex && !wholeWord`. -/
theorem replaceText_error_of_modes {content find replaceW : Text}
    {regex cs ww : Bool} {maxR : Int}
    (h : regex = true ∨ ww = true) :
    ∃ e, replaceText content find replaceW regex cs ww maxR =
      .error e := by
  rcases h with rfl | rfl
  · by_cases hf : find = []
    · exact ⟨.emptyFind, by simp [replaceText, hf]⟩
    · exact ⟨.notImplemented, by simp [replaceText, hf]⟩
  · by_cases hf : find = []
    · exact ⟨.emptyFind, by simp [replaceText, hf]⟩
    · exact ⟨.notImplemented, by simp [replaceText, hf]⟩

/-- C10 -- For every input content and every `replace_text` call with
`regex=true` or `whole_word=true`, the replacement function returns an
error (the modes are unimplemented; an empty find pattern errors even
earlier), the handler reports an error and never writes the target
file — its content after the request equals its content before —
although a requested backup (`create_backup=true`) has already been
created, holding the original content, before the failure is
reported. -/
theorem handleReplaceText_modes_spec :
    ∀ (absFn : Path → Option Path) (dirs : List Path) (fs : FSx)
      (path : Path) (content find replaceW : Text)
      (regex cs ww cb : Bool) (maxR : Int) (ts : Nat),
      regex = true ∨ ww = true →
      (∃ e, replaceText content find replaceW regex cs ww maxR =
        .error e) ∧
      (∃ e, (handleReplaceText absFn dirs fs path find replaceW regex cs
          ww maxR cb ts).2 = .error e) ∧
      readFile (handleReplaceText absFn dirs fs path find replaceW regex
          cs ww maxR cb ts).1 path = readFile fs path ∧
      (cb = true → readFile fs path = some content →
        isPathAllowed absFn dirs path = true →
        fs.writeOK (backupName path ts) = true →
        readFile (handleReplaceText absFn dirs fs path find replaceW
            regex cs ww maxR cb ts).1 (backupName path ts) =
          some content) := by
  intro absFn dirs fs path content find replaceW regex cs ww cb maxR ts
    hmode
  refine ⟨replaceText_error_of_modes hmode, ?_⟩
  simp only [handleReplaceText]
  split
  · rename_i hna
    refine ⟨⟨_, rfl⟩, rfl, ?_⟩
    intro _ _ hallow _
    exact absurd (hallow.symm.trans hna) (by decide)
  · split
    · rename_i hnone
      refine ⟨⟨_, rfl⟩, rfl, ?_⟩
      intro _ hread _ _
      rw [hread] at hnone
      cases hnone
    · rename_i content' hread'
      split
      · rename_i hcb
        split
        · rename_i hbnone
          refine ⟨⟨_, rfl⟩, rfl, ?_⟩
          intro _ hread hallow hwok
          simp [createBackup, hread', writeFile, hwok] at hbnone
        · rename_i fs1 bp hback
          obtain ⟨e', he'⟩ := @replaceText_error_of_modes content' find
            replaceW regex cs ww maxR hmode
          rw [he']
          refine ⟨⟨_, rfl⟩, ?_, ?_⟩
          · exact createBackup_other hback (backupName_ne path ts).symm
          · intro _ hread _ _
            have h1 := createBackup_name hback
            have h2 := createBackup_content hback
            rw [h1] at h2
            rw [h2, hread]
      · obtain ⟨e', he'⟩ := @replaceText_error_of_modes content' find
          replaceW regex cs ww maxR hmode
        rw [he']
        refine ⟨⟨_, rfl⟩, rfl, ?_⟩
        rename_i hcb
        intro hcb' _ _ _
        exact absurd hcb' hcb

/-- Witness for `handleReplaceText_modes_spec`: a regex-mode request on
a one-file filesystem leaves the target file's content unchanged. -/
theorem handleReplaceText_modes_spec_witness :
    readFile (handleReplaceText (fun q => some q) ["/t".toList]
        { files := [("/t/a".toList, "x".toList)],
          writeOK := fun _ => true }
        "/t/a".toList "x".toList "y".toList true true false (-1) true
        0).1 "/t/a".toList =
      readFile
        { files := [("/t/a".toList, "x".toList)],
          writeOK := fun _ => true }
        "/t/a".toList :=
  (handleReplaceText_modes_spec (fun q => some q) ["/t".toList]
      { files := [("/t/a".toList, "x".toList)],
        writeOK := fun _ => true }
      "/t/a".toList "x".toList "x".toList "y".toList true true false
      true (-1) 0 (Or.inl rfl)).2.2.1

/-- C1 -- The claim (and the tool's own description, "All operations
succeed or all fail") says an `atomic=true` batch leaves every file
either untouched or fully edited, with no mixed outcome; but the
processing loop writes files one at a time and returns on the first
failure without rolling back.  Concretely: two files under allow-list
`/t`, both readable and with valid operations (so the validation
pre-pass succeeds), where `/t/b` is not writable — the request returns
the write error for `/t/b` while `/t/a` has already been rewritten from
`"x"` to `"X"` and `/t/b` still holds `"y"`: a mixed outcome. -/
theorem atomic_batch_mixed_outcome :
    readFile (handleEditMultipleFiles (fun q => some q) ["/t".toList]
        { files := [("/t/a".toList, "x".toList), ("/t/b".toList, "y".toList)],
          writeOK := fun p => !(p == "/t/b".toList) }
        [{ path := "/t/a".toList,
           operations := [{ startLine := 1, endLine := 1,
                            replacement := "X".toList }],
           createBackup := false },
         { path := "/t/b".toList,
           operations := [{ startLine := 1, endLine := 1,
                            replacement := "Y".toList }],
           createBackup := false }]
        true false false true 0).1 "/t/a".toList = some "X".toList ∧
    readFile (handleEditMultipleFiles (fun q => some q) ["/t".toList]
        { files := [("/t/a".toList, "x".toList), ("/t/b".toList, "y".toList)],
          writeOK := fun p => !(p == "/t/b".toList) }
        [{ path := "/t/a".toList,
           operations := [{ startLine := 1, endLine := 1,
                            replacement := "X".toList }],
           createBackup := false },
         { path := "/t/b".toList,
           operations := [{ startLine := 1, endLine := 1,
                            replacement := "Y".toList }],
           createBackup := false }]
        true false false true 0).1 "/t/b".toList = some "y".toList ∧
    (handleEditMultipleFiles (fun q => some q) ["/t".toList]
        { files := [("/t/a".toList, "x".toList), ("/t/b".toList, "y".toList)],
          writeOK := fun p => !(p == "/t/b".toList) }
        [{ path := "/t/a".toList,
           operations := [{ startLine := 1, endLine := 1,
                            replacement := "X".toList }],
           createBackup := false },
         { path := "/t/b".toList,
           operations := [{ startLine := 1, endLine := 1,
                            replacement := "Y".toList }],
           createBackup := false }]
        true false false true 0).2 =
      .fatal (.writeFailed "/t/b".toList) ∧
    readFile
        { files := [("/t/a".toList, "x".toList), ("/t/b".toList, "y".toList)],
          writeOK := fun p => !(p == "/t/b".toList) }
        "/t/a".toList = some "x".toList ∧
    "x".toList ≠ "X".toList := by
  exact ⟨by decide, by decide, by decide, by decide, by decide⟩

/-! ## Text insertions (`common.ApplyTextInsertions`) -/

/-- The application loop of `ApplyTextInsertions` over the
descending-sorted insertions: validate the line number
(`line < 1 || line > len(lines)+1` errors out, aborting with the Go
function's error return), then splice the split content before or
after the line without consuming any existing line. -/
def applyInsertionsLoop : List Text → List TextInsertion →
    Except Unit (List Text)
  | lines, [] => .ok lines
  | lines, ins :: rest =>
    if ins.line < 1 ∨ ins.line > (lines.length : Int) + 1 then .error ()
    else
      if ins.before then
        applyInsertionsLoop
          (lines.take (ins.line - 1).toNat ++ splitLines ins.content ++
            lines.drop (ins.line - 1).toNat) rest
      else
        applyInsertionsLoop
          (lines.take ins.line.toNat ++ splitLines ins.content ++
            lines.drop ins.line.toNat) rest

/-- `common.ApplyTextInsertions`: empty insertion lists are returned
unchanged; otherwise split, sort the insertions by line descending with
the exchange sort, apply, and re-join.  (The `adjustLineNumbers`
parameter is accepted and ignored, as in the Go function.) -/
def applyTextInsertions (content : Text) (insertions : List TextInsertion)
    (adjustLineNumbers : Bool) : Except Unit Text :=
  if insertions.isEmpty then .ok content
  else
    match applyInsertionsLoop (splitLines content)
        (exchangeSortBy (fun ins => ins.line) insertions) with
    | .error e => .error e
    | .ok lines => .ok (joinLines lines)

end Jarvis
